import Mathlib

set_option linter.unusedSectionVars false

/-!
A shallow embedding of the core of the `signal-utils` repository
(`MemoizedArrayOfSignals` in `memoized-array-of-signals.ts`, `MemoizedComputeds`,
and `complexSignal`) together with theorems settling the behavioural claims
about identity-preserving reconciliation, cache pruning, notification counts,
and the deep mutation wrapper.

Modelling conventions:
* A reactive cell (`Signal`) is identified by a natural number (its object
  identity); the value currently held by each cell is a total function
  `heap : Nat → T` (fresh cells are drawn from a `nextCell` counter, so
  distinct allocations have distinct identities).
* The `#cache` JavaScript `Map` is an insertion-ordered association list;
  `Map.get` is `alGet` (first match), `Map.set` is `alSet`
  (replace-in-place-or-append), `Map.delete` is `alDelete`.
* The `#storage` signal holds the ordered list of cell identities; writing it
  (`this.#storage.value = newOrder`) is counted by `orderWrites`.  Each such
  write stores a fresh outer `{ inner }` record in the underlying signal, so
  each write fires the collection-level subscription exactly once; thus
  `orderWrites` is also the number of collection-level notifications.
-/

section AssocList

variable {I A : Type} [DecidableEq I]

/-- JavaScript `Map.prototype.get` over an insertion-ordered entry list. -/
def alGet : List (I × A) → I → Option A
  | [], _ => none
  | p :: rest, i => if p.1 = i then some p.2 else alGet rest i

/-- JavaScript `Map.prototype.set`: overwrite the existing entry in place, or
append a new entry at the end. -/
def alSet : List (I × A) → I → A → List (I × A)
  | [], i, a => [(i, a)]
  | p :: rest, i, a => if p.1 = i then (i, a) :: rest else p :: alSet rest i a

/-- JavaScript `Map.prototype.delete`: remove the entry for a key. -/
def alDelete (l : List (I × A)) (i : I) : List (I × A) :=
  l.filter (fun p => p.1 ≠ i)

theorem alGet_alSet_preserve {l : List (I × A)} {i j : I} {c : A} {v : A}
    (hget : alGet l i = some c) (hnone : alGet l j = none) :
    alGet (alSet l j v) i = some c := by
  induction l with
  | nil => simp [alGet] at hget
  | cons p rest ih =>
    by_cases hp : p.1 = j
    · simp [alGet, hp] at hnone
    · simp only [alSet, if_neg hp]
      by_cases hpi : p.1 = i
      · simp [alGet, hpi] at hget ⊢; exact hget
      · simp only [alGet, if_neg hpi] at hget ⊢
        simp only [alGet, if_neg hp] at hnone
        exact ih hget hnone

theorem alGet_alSet_self {l : List (I × A)} {i : I} {v : A} :
    alGet (alSet l i v) i = some v := by
  induction l with
  | nil => simp [alSet, alGet]
  | cons p rest ih =>
    by_cases hp : p.1 = i
    · simp [alSet, hp, alGet]
    · simp [alSet, hp, alGet, ih]

theorem alGet_alSet_ne {l : List (I × A)} {i j : I} {v : A} (hij : j ≠ i) :
    alGet (alSet l j v) i = alGet l i := by
  induction l with
  | nil => simp [alSet, alGet, hij]
  | cons p rest ih =>
    by_cases hp : p.1 = j
    · simp [alSet, hp, alGet, hij, hp ▸ hij]
    · simp only [alSet, if_neg hp]
      by_cases hpi : p.1 = i
      · simp [alGet, hpi]
      · simp [alGet, hpi, ih]

theorem alGet_alDelete_ne {l : List (I × A)} {i j : I} (hij : j ≠ i) :
    alGet (alDelete l j) i = alGet l i := by
  induction l with
  | nil => rfl
  | cons p rest ih =>
    by_cases hp : p.1 = j
    · rw [show alDelete (p :: rest) j = alDelete rest j by
        simp [alDelete, List.filter_cons, hp]]
      rw [ih]
      simp [alGet, hp, hij]
    · rw [show alDelete (p :: rest) j = p :: alDelete rest j by
        simp [alDelete, List.filter_cons, hp]]
      simp [alGet, ih]

theorem alGet_alDelete_self {l : List (I × A)} {i : I} :
    alGet (alDelete l i) i = none := by
  induction l with
  | nil => simp [alDelete, alGet]
  | cons p rest ih =>
    by_cases hp : p.1 = i
    · simpa [alDelete, List.filter, hp] using ih
    · simpa [alDelete, List.filter, hp, alGet] using ih

theorem alGet_mem {l : List (I × A)} {i : I} {a : A} (h : alGet l i = some a) :
    (i, a) ∈ l := by
  induction l with
  | nil => simp [alGet] at h
  | cons p rest ih =>
    by_cases hp : p.1 = i
    · simp only [alGet, if_pos hp] at h
      injection h with h
      subst h
      cases p
      cases hp
      exact List.mem_cons_self _ _
    · simp only [alGet, if_neg hp] at h
      exact List.mem_cons_of_mem _ (ih h)

/-- Filtering an entry list by a predicate on keys that holds at `i` does not
change the lookup at `i`. -/
theorem alGet_filter_of_holds {l : List (I × A)} {i : I} {q : I → Bool}
    (hq : q i = true) :
    alGet (l.filter (fun p => q p.1)) i = alGet l i := by
  induction l with
  | nil => simp [alGet]
  | cons p rest ih =>
    by_cases hpi : p.1 = i
    · simp [List.filter, hpi, hq, alGet]
    · by_cases hqp : q p.1
      · simp [List.filter, hqp, alGet, hpi, ih]
      · simp [List.filter, hqp, alGet, hpi, ih]

/-- Filtering an entry list by a key predicate that fails at `i` removes every
entry for `i`. -/
theorem alGet_filter_of_fails {l : List (I × A)} {i : I} {q : I → Bool}
    (hq : q i = false) :
    alGet (l.filter (fun p => q p.1)) i = none := by
  induction l with
  | nil => simp [alGet]
  | cons p rest ih =>
    by_cases hpi : p.1 = i
    · simp [List.filter, hpi, hq, ih]
    · by_cases hqp : q p.1
      · simp [List.filter, hqp, alGet, hpi, ih]
      · simp [List.filter, hqp, ih]

end AssocList

section MAOS

variable {T I : Type} [DecidableEq I] [DecidableEq T] [Inhabited T]

/-- State of a `MemoizedArrayOfSignals<T, I>` instance.

* `cache` models the private `#cache : Map<I, Signal<T>>` (cells named by
  their allocation number);
* `order` models the array currently held by the `#storage` signal;
* `heap c` is the value currently held by cell `c` (cell writes mutate it in
  place; the cell's object identity `c` never changes);
* `nextCell` is the allocation counter for fresh `signal(...)` calls;
* `orderWrites` counts assignments to the `#storage` signal, i.e. the number
  of times the collection-level subscription has fired. -/
structure MemoizedArrayOfSignals (T I : Type) where
  cache : List (I × Nat)
  order : List Nat
  heap : Nat → T
  nextCell : Nat
  orderWrites : Nat

namespace MemoizedArrayOfSignals

/-- Write cell `c` in place (`existing.value = item`). -/
def heapWrite (h : Nat → T) (c : Nat) (v : T) : Nat → T :=
  fun x => if x = c then v else h x

/-- `getByID(id)`: untracked cache lookup (`this.#cache.get(id)`). -/
def getByID (st : MemoizedArrayOfSignals T I) (id : I) : Option Nat :=
  alGet st.cache id

/-- The resolution of the computed returned by `computedById(id)`: it reads
the storage signal (for dependency tracking) and then resolves
`this.#cache.get(id)?.value` against the current state. -/
def computedByIdRead (st : MemoizedArrayOfSignals T I) (id : I) : Option T :=
  (alGet st.cache id).map st.heap

/-- `#cacheItem(item)` for a raw (non-Signal) value: reuse the cell cached for
`idFn item` if present, otherwise allocate a fresh cell holding `item` and
cache it.  Returns the updated state and the resulting cell. -/
def cacheItem (idFn : T → I) (st : MemoizedArrayOfSignals T I) (item : T) :
    MemoizedArrayOfSignals T I × Nat :=
  let id := idFn item
  match alGet st.cache id with
  | some c => (st, c)
  | none =>
      let c := st.nextCell
      ({ st with
          heap := heapWrite st.heap c item
          nextCell := c + 1
          cache := alSet st.cache id c }, c)

/-- The `MemoizedArrayOfSignals` constructor: one cell per element, in input
order (`#storage = complexSignal(signals)`; construction performs no storage
write, so `orderWrites` starts at 0). -/
def construct (idFn : T → I) (items : List T) : MemoizedArrayOfSignals T I :=
  items.foldl
    (fun s x =>
      let r := cacheItem idFn s x
      { r.1 with order := r.1.order ++ [r.2] })
    ⟨[], [], fun _ => default, 0, 0⟩

/-- The per-item loop body of `set value(newItems)` iterated over the incoming
array: for each item compute its identity, record it in `newIds`, and either
update the existing cell in place (`existing.value = item`) or create and
cache a fresh cell (`this.#cacheItem(item)`).  Returns the state after the
loop, the proposed `newOrder`, and the list of incoming identities
(`newIds`). -/
def processItems (idFn : T → I) (st : MemoizedArrayOfSignals T I) :
    List T → MemoizedArrayOfSignals T I × List Nat × List I
  | [] => (st, [], [])
  | item :: rest =>
    let id := idFn item
    match alGet st.cache id with
    | some c =>
        let st1 := { st with heap := heapWrite st.heap c item }
        let r := processItems idFn st1 rest
        (r.1, c :: r.2.1, id :: r.2.2)
    | none =>
        let c := st.nextCell
        let st1 := { st with
          heap := heapWrite st.heap c item
          nextCell := c + 1
          cache := alSet st.cache id c }
        let r := processItems idFn st1 rest
        (r.1, c :: r.2.1, id :: r.2.2)

/-- `set value(newItems)` (memoized-array-of-signals.ts lines 117–162):
snapshot the previous order and its identities, run the reconciliation loop,
compare the proposed order element-by-object-identity against the previous
order (equal length and identical cell at every position ⇒ skip the storage
assignment), prune every previous identity absent from the incoming set, and
finally assign the storage signal unless the comparison said to skip. -/
def setValue (idFn : T → I) (st : MemoizedArrayOfSignals T I) (newItems : List T) :
    MemoizedArrayOfSignals T I :=
  let prev := st.order
  let prevIds := prev.map (fun c => idFn (st.heap c))
  let r := processItems idFn st newItems
  let st1 := r.1
  let newOrder := r.2.1
  let newIds := r.2.2
  let skipValueAssign : Bool := prev = newOrder
  let st2 := { st1 with
    cache := prevIds.foldl
      (fun m id => if id ∈ newIds then m else alDelete m id) st1.cache }
  if skipValueAssign then st2
  else { st2 with order := newOrder, orderWrites := st2.orderWrites + 1 }

/-- `pop()` (memoized-array-of-signals.ts lines 344–346): pops the last cell
out of the storage array through the `complexSignal` proxy (one batched
structural mutation, hence one collection-level notification) and returns it.
Note the source does **not** delete the popped cell's cache entry, unlike
`shift()` and `splice()`. -/
def pop (st : MemoizedArrayOfSignals T I) :
    MemoizedArrayOfSignals T I × Option Nat :=
  match st.order.getLast? with
  | none => (st, none)
  | some c =>
      ({ st with order := st.order.dropLast, orderWrites := st.orderWrites + 1 },
       some c)

section Exceptional

variable {E : Type}

/-- `prev.map(i => this.#idFn(i.peek()))` with a throwing `idFn`: the
identities of the previous order, aborting at the first raise. -/
def mapIdsE (idFn : T → Except E I) (heap : Nat → T) :
    List Nat → Except E (List I)
  | [] => .ok []
  | c :: rest =>
    match idFn (heap c) with
    | .error e => .error e
    | .ok id =>
      match mapIdsE idFn heap rest with
      | .error e => .error e
      | .ok ids => .ok (id :: ids)

/-- The reconciliation loop of `set value` with a throwing `idFn`.  On a raise
the loop stops immediately with the state mutated so far (every cache
insertion and in-place cell write already performed stays in effect); on
success it returns the state, proposed order, and incoming identities. -/
def processItemsE (idFn : T → Except E I) (st : MemoizedArrayOfSignals T I) :
    List T →
      (MemoizedArrayOfSignals T I × List Nat × List I) ⊕
      (MemoizedArrayOfSignals T I × E)
  | [] => .inl (st, [], [])
  | item :: rest =>
    match idFn item with
    | .error e => .inr (st, e)
    | .ok id =>
      match alGet st.cache id with
      | some c =>
          let st1 := { st with heap := heapWrite st.heap c item }
          match processItemsE idFn st1 rest with
          | .inl r => .inl (r.1, c :: r.2.1, id :: r.2.2)
          | .inr r => .inr r
      | none =>
          let c := st.nextCell
          let st1 := { st with
            heap := heapWrite st.heap c item
            nextCell := c + 1
            cache := alSet st.cache id c }
          match processItemsE idFn st1 rest with
          | .inl r => .inl (r.1, c :: r.2.1, id :: r.2.2)
          | .inr r => .inr r

/-- `set value(newItems)` with a throwing `idFn`: an exception raised while
computing the previous identities (line 119) or inside the reconciliation
loop propagates synchronously out of the setter (second component `some e`),
skipping the pruning pass and the storage assignment; otherwise the setter
completes exactly as `setValue`. -/
def setValueE (idFn : T → Except E I) (st : MemoizedArrayOfSignals T I)
    (newItems : List T) : MemoizedArrayOfSignals T I × Option E :=
  match mapIdsE idFn st.heap st.order with
  | .error e => (st, some e)
  | .ok prevIds =>
    match processItemsE idFn st newItems with
    | .inr r => (r.1, some r.2)
    | .inl r =>
      let st1 := r.1
      let newOrder := r.2.1
      let newIds := r.2.2
      let skipValueAssign : Bool := st.order = newOrder
      let st2 := { st1 with
        cache := prevIds.foldl
          (fun m id => if id ∈ newIds then m else alDelete m id) st1.cache }
      if skipValueAssign then (st2, none)
      else ({ st2 with order := newOrder, orderWrites := st2.orderWrites + 1 },
            none)

end Exceptional

/-- Well-formedness of a collection state (Invariant A together with cache
coherence): cache keys are unique; every cache entry's cell holds a value with
that identity, sits in the order, and was allocated below `nextCell`; and
every cell in the order is cached under its current identity. -/
def WF (idFn : T → I) (st : MemoizedArrayOfSignals T I) : Prop :=
  (st.cache.map Prod.fst).Nodup ∧
  (∀ p ∈ st.cache,
    idFn (st.heap p.2) = p.1 ∧ p.2 ∈ st.order ∧ p.2 < st.nextCell) ∧
  (∀ c ∈ st.order, alGet st.cache (idFn (st.heap c)) = some c)

instance (idFn : T → I) (st : MemoizedArrayOfSignals T I) :
    Decidable (WF idFn st) := by
  unfold WF
  infer_instance

/-- The cache maps distinct identities to distinct cells. -/
def Inj (st : MemoizedArrayOfSignals T I) : Prop :=
  ∀ a b c, alGet st.cache a = some c → alGet st.cache b = some c → a = b

/-- Every cached cell was allocated below the allocation counter. -/
def Bounded (st : MemoizedArrayOfSignals T I) : Prop :=
  ∀ i c, alGet st.cache i = some c → c < st.nextCell

theorem WF.inj {idFn : T → I} {st : MemoizedArrayOfSignals T I}
    (h : WF idFn st) : Inj st := by
  intro a b c ha hb
  have h2 := h.2.1
  have ha' := (h2 _ (alGet_mem ha)).1
  have hb' := (h2 _ (alGet_mem hb)).1
  simp only at ha' hb'
  rw [← ha', ← hb']

theorem WF.bounded {idFn : T → I} {st : MemoizedArrayOfSignals T I}
    (h : WF idFn st) : Bounded st := by
  intro i c hc
  exact (h.2.1 _ (alGet_mem hc)).2.2

theorem WF.mem_order {idFn : T → I} {st : MemoizedArrayOfSignals T I}
    (h : WF idFn st) {i : I} {c : Nat} (hc : alGet st.cache i = some c) :
    c ∈ st.order :=
  (h.2.1 _ (alGet_mem hc)).2.1

theorem WF.id_of {idFn : T → I} {st : MemoizedArrayOfSignals T I}
    (h : WF idFn st) {i : I} {c : Nat} (hc : alGet st.cache i = some c) :
    idFn (st.heap c) = i :=
  (h.2.1 _ (alGet_mem hc)).1

/-- The reconciliation loop never touches the storage signal: order and the
collection-level write count are unchanged. -/
theorem processItems_order (idFn : T → I) (items : List T) :
    ∀ st : MemoizedArrayOfSignals T I,
      (processItems idFn st items).1.order = st.order ∧
      (processItems idFn st items).1.orderWrites = st.orderWrites := by
  induction items with
  | nil => intro st; simp [processItems]
  | cons x rest ih =>
    intro st
    simp only [processItems]
    cases h : alGet st.cache (idFn x) with
    | some c => simpa using ih _
    | none => simpa using ih _

/-- The incoming identities collected by the loop are exactly the images of
the incoming items under `idFn`. -/
theorem processItems_ids (idFn : T → I) (items : List T) :
    ∀ st : MemoizedArrayOfSignals T I,
      (processItems idFn st items).2.2 = items.map idFn := by
  induction items with
  | nil => intro st; simp [processItems]
  | cons x rest ih =>
    intro st
    simp only [processItems, List.map_cons]
    cases h : alGet st.cache (idFn x) with
    | some c => simpa using ih _
    | none => simpa using ih _

/-- The loop never removes or overwrites an existing cache binding. -/
theorem processItems_cache_preserve (idFn : T → I) (items : List T) :
    ∀ (st : MemoizedArrayOfSignals T I) {i : I} {c : Nat},
      alGet st.cache i = some c →
      alGet (processItems idFn st items).1.cache i = some c := by
  induction items with
  | nil => intro st i c h; simpa [processItems] using h
  | cons x rest ih =>
    intro st i c h
    simp only [processItems]
    cases hx : alGet st.cache (idFn x) with
    | some c' => exact ih _ h
    | none => exact ih _ (alGet_alSet_preserve h hx)

/-- The loop adds cache bindings only for incoming identities. -/
theorem processItems_cache_untouched (idFn : T → I) (items : List T) :
    ∀ (st : MemoizedArrayOfSignals T I) {i : I},
      i ∉ items.map idFn →
      alGet (processItems idFn st items).1.cache i = alGet st.cache i := by
  induction items with
  | nil => intro st i _; simp [processItems]
  | cons x rest ih =>
    intro st i hni
    simp only [List.map_cons, List.mem_cons] at hni
    push_neg at hni
    simp only [processItems]
    cases hx : alGet st.cache (idFn x) with
    | some c' => exact ih _ hni.2
    | none =>
        rw [ih _ hni.2]
        exact alGet_alSet_ne (fun h => hni.1 h.symm)

/-- The allocation counter is monotone across the loop. -/
theorem processItems_nextCell_mono (idFn : T → I) (items : List T) :
    ∀ st : MemoizedArrayOfSignals T I,
      st.nextCell ≤ (processItems idFn st items).1.nextCell := by
  induction items with
  | nil => intro st; simp [processItems]
  | cons x rest ih =>
    intro st
    simp only [processItems]
    cases h : alGet st.cache (idFn x) with
    | some c => exact ih { st with heap := heapWrite st.heap c x }
    | none =>
        exact Nat.le_trans (Nat.le_succ _)
          (ih { st with
            heap := heapWrite st.heap st.nextCell x
            nextCell := st.nextCell + 1
            cache := alSet st.cache (idFn x) st.nextCell })

/-- One loop step preserves cache injectivity and boundedness. -/
theorem step_inj_bounded {st : MemoizedArrayOfSignals T I} {i : I} {c : Nat}
    (hinj : Inj st) (hbdd : Bounded st) (hnone : alGet st.cache i = none)
    (hc : c = st.nextCell) {v : T} :
    Inj { st with heap := heapWrite st.heap c v, nextCell := c + 1,
                  cache := alSet st.cache i c } ∧
    Bounded { st with heap := heapWrite st.heap c v, nextCell := c + 1,
                      cache := alSet st.cache i c } := by
  subst hc
  constructor
  · intro a b d ha hb
    by_cases hai : a = i
    · subst hai
      rw [alGet_alSet_self] at ha
      by_cases hbi : b = a
      · exact hbi.symm
      · rw [alGet_alSet_ne (fun h => hbi h.symm)] at hb
        injection ha with ha
        have := hbdd b d hb
        omega
    · rw [alGet_alSet_ne (fun h => hai h.symm)] at ha
      by_cases hbi : b = i
      · subst hbi
        rw [alGet_alSet_self] at hb
        injection hb with hb
        have := hbdd a d ha
        omega
      · rw [alGet_alSet_ne (fun h => hbi h.symm)] at hb
        exact hinj a b d ha hb
  · intro j d hj
    show d < st.nextCell + 1
    by_cases hji : j = i
    · subst hji
      rw [alGet_alSet_self] at hj
      injection hj with hj
      omega
    · rw [alGet_alSet_ne (fun h => hji h.symm)] at hj
      exact Nat.lt_trans (hbdd j d hj) (Nat.lt_succ_self _)

/-- The loop preserves cache injectivity and boundedness. -/
theorem processItems_inj_bounded (idFn : T → I) (items : List T) :
    ∀ st : MemoizedArrayOfSignals T I, Inj st → Bounded st →
      Inj (processItems idFn st items).1 ∧
      Bounded (processItems idFn st items).1 := by
  induction items with
  | nil => intro st hinj hbdd; exact ⟨hinj, hbdd⟩
  | cons x rest ih =>
    intro st hinj hbdd
    simp only [processItems]
    cases hx : alGet st.cache (idFn x) with
    | some c =>
        exact ih { st with heap := heapWrite st.heap c x } hinj hbdd
    | none =>
        have hs := step_inj_bounded (i := idFn x) (c := st.nextCell)
          (v := x) hinj hbdd hx rfl
        exact ih _ hs.1 hs.2

/-- If an identity is absent from the rest of the incoming items, the cell it
is cached at is never written again by the loop. -/
theorem processItems_heap_stable (idFn : T → I) (items : List T) :
    ∀ (st : MemoizedArrayOfSignals T I) {i : I} {c : Nat},
      Inj st → Bounded st → alGet st.cache i = some c →
      i ∉ items.map idFn →
      (processItems idFn st items).1.heap c = st.heap c := by
  induction items with
  | nil => intro st i c _ _ _ _; simp [processItems]
  | cons x rest ih =>
    intro st i c hinj hbdd hc hni
    simp only [List.map_cons, List.mem_cons] at hni
    push_neg at hni
    simp only [processItems]
    cases hx : alGet st.cache (idFn x) with
    | some c' =>
        have hcc' : c' ≠ c := by
          intro h
          exact hni.1 (hinj _ _ _ hx (h ▸ hc)).symm
        rw [ih { st with heap := heapWrite st.heap c' x } hinj hbdd hc hni.2]
        simp [heapWrite, Ne.symm hcc']
    | none =>
        have hcn : c ≠ st.nextCell := by
          have := hbdd _ _ hc
          omega
        have hs := step_inj_bounded (i := idFn x) (c := st.nextCell)
          (v := x) hinj hbdd hx rfl
        have hc1 : alGet (alSet st.cache (idFn x) st.nextCell) i = some c :=
          alGet_alSet_preserve hc hx
        rw [ih _ hs.1 hs.2 hc1 hni.2]
        simp [heapWrite, hcn]

/-- Deleting a key cannot make another lookup appear. -/
theorem alGet_alDelete_none {m : List (I × Nat)} {i j : I}
    (h : alGet m i = none) : alGet (alDelete m j) i = none := by
  by_cases hji : j = i
  · subst hji; exact alGet_alDelete_self
  · rw [alGet_alDelete_ne hji]; exact h

/-- The pruning pass of `set value` (`for (const id of prevIds) if
(!newIds.has(id)) this.#cache.delete(id)`) leaves lookups of incoming
identities untouched. -/
theorem pruneFold_preserve {newIds : List I} {i : I} (hi : i ∈ newIds)
    (l : List I) :
    ∀ m : List (I × Nat),
      alGet (l.foldl (fun m id => if id ∈ newIds then m else alDelete m id) m) i
        = alGet m i := by
  induction l with
  | nil => intro m; rfl
  | cons j rest ih =>
    intro m
    simp only [List.foldl_cons]
    by_cases hj : j ∈ newIds
    · rw [if_pos hj, ih]
    · rw [if_neg hj, ih,
        alGet_alDelete_ne (show j ≠ i from fun h => hj (by rw [h]; exact hi))]

/-- The pruning pass never resurrects an absent lookup. -/
theorem pruneFold_none {newIds : List I} {i : I} (l : List I) :
    ∀ m : List (I × Nat), alGet m i = none →
      alGet (l.foldl (fun m id => if id ∈ newIds then m else alDelete m id) m) i
        = none := by
  induction l with
  | nil => intro m h; exact h
  | cons j rest ih =>
    intro m h
    simp only [List.foldl_cons]
    by_cases hj : j ∈ newIds
    · rw [if_pos hj]; exact ih m h
    · rw [if_neg hj]; exact ih _ (alGet_alDelete_none h)

/-- The pruning pass deletes every previous identity that is absent from the
incoming identity set. -/
theorem pruneFold_delete {newIds : List I} {i : I} (hni : i ∉ newIds)
    (l : List I) :
    ∀ m : List (I × Nat), i ∈ l →
      alGet (l.foldl (fun m id => if id ∈ newIds then m else alDelete m id) m) i
        = none := by
  induction l with
  | nil => intro m h; cases h
  | cons j rest ih =>
    intro m hmem
    simp only [List.foldl_cons]
    rcases List.mem_cons.mp hmem with hji | hrest
    · subst hji
      rw [if_neg hni]
      exact pruneFold_none rest _ alGet_alDelete_self
    · by_cases hj : j ∈ newIds
      · rw [if_pos hj]; exact ih m hrest
      · rw [if_neg hj]; exact ih _ hrest

/-- The cache of the completed `set value` is the loop's cache run through the
pruning pass over the previous identities. -/
theorem setValue_cache (idFn : T → I) (st : MemoizedArrayOfSignals T I)
    (items : List T) :
    (setValue idFn st items).cache =
      (st.order.map (fun c => idFn (st.heap c))).foldl
        (fun m id =>
          if id ∈ (processItems idFn st items).2.2 then m else alDelete m id)
        (processItems idFn st items).1.cache := by
  simp only [setValue]
  split <;> rfl

/-- `set value` never writes cells after the loop: the final heap is the
loop's heap. -/
theorem setValue_heap (idFn : T → I) (st : MemoizedArrayOfSignals T I)
    (items : List T) :
    (setValue idFn st items).heap = (processItems idFn st items).1.heap := by
  simp only [setValue]
  split <;> rfl

/-- The storage signal is written exactly when the proposed order differs
from the previous one: order and write count of the completed `set value`. -/
theorem setValue_order_writes (idFn : T → I) (st : MemoizedArrayOfSignals T I)
    (items : List T) :
    ((setValue idFn st items).order, (setValue idFn st items).orderWrites) =
      if st.order = (processItems idFn st items).2.1
      then (st.order, st.orderWrites)
      else ((processItems idFn st items).2.1, st.orderWrites + 1) := by
  have hord := processItems_order idFn items st
  simp only [setValue]
  split
  · next hskip =>
      rw [if_pos (of_decide_eq_true hskip)]
      simp [hord.1, hord.2]
  · next hskip =>
      rw [if_neg (of_decide_eq_false (Bool.not_eq_true _ ▸ hskip))]
      simp [hord.2]

/-- The last incoming value carrying a given identity (the value its cell
holds once the reconciliation loop finishes, duplicates resolved by "last
write wins"). -/
def lastFor (idFn : T → I) (items : List T) (id : I) : Option T :=
  (items.filter (fun x => idFn x = id)).getLast?

theorem lastFor_cons_of_mem {idFn : T → I} {rest : List T} {id : I} (x : T)
    (h : id ∈ rest.map idFn) :
    lastFor idFn (x :: rest) id = lastFor idFn rest id := by
  have hne : rest.filter (fun y => idFn y = id) ≠ [] := by
    intro hemp
    rcases List.mem_map.mp h with ⟨y, hy, hid⟩
    have := List.filter_eq_nil_iff.mp hemp y hy
    simp [hid] at this
  simp only [lastFor, List.filter_cons]
  by_cases hx : idFn x = id
  · rw [if_pos (by simp [hx])]
    rcases List.exists_cons_of_ne_nil hne with ⟨y, l, hyl⟩
    rw [hyl, List.getLast?_cons_cons]
  · rw [if_neg (by simp [hx])]

/-- After the reconciliation loop, an incoming identity is cached at a cell
holding the last incoming value with that identity. -/
theorem processItems_last (idFn : T → I) (items : List T) :
    ∀ (st : MemoizedArrayOfSignals T I), Inj st → Bounded st →
      ∀ {id : I}, id ∈ items.map idFn →
      ∃ c, alGet (processItems idFn st items).1.cache id = some c ∧
        some ((processItems idFn st items).1.heap c) = lastFor idFn items id := by
  induction items with
  | nil => intro st _ _ id h; simp at h
  | cons x rest ih =>
    intro st hinj hbdd id hid
    by_cases hrest : id ∈ rest.map idFn
    · rw [lastFor_cons_of_mem x hrest]
      simp only [processItems]
      cases hx : alGet st.cache (idFn x) with
      | some c => exact ih { st with heap := heapWrite st.heap c x } hinj hbdd hrest
      | none =>
          have hs := step_inj_bounded (i := idFn x) (c := st.nextCell)
            (v := x) hinj hbdd hx rfl
          exact ih _ hs.1 hs.2 hrest
    · have hxid : idFn x = id := by
        rcases List.mem_map.mp hid with ⟨y, hy, hyid⟩
        rcases List.mem_cons.mp hy with rfl | hyr
        · exact hyid
        · exact absurd (List.mem_map.mpr ⟨y, hyr, hyid⟩) hrest
      have hlast : lastFor idFn (x :: rest) id = some x := by
        have hemp : rest.filter (fun y => idFn y = id) = [] := by
          rw [List.filter_eq_nil_iff]
          intro y hy
          simp only [decide_eq_true_eq]
          intro hyid
          exact hrest (List.mem_map.mpr ⟨y, hy, hyid⟩)
        simp [lastFor, List.filter_cons, hxid, hemp]
      rw [hlast]
      simp only [processItems]
      cases hx : alGet st.cache (idFn x) with
      | some c =>
          have hc1 : alGet st.cache id = some c := hxid ▸ hx
          refine ⟨c, processItems_cache_preserve idFn rest _ hc1, ?_⟩
          have hstable := processItems_heap_stable idFn rest
            { st with heap := heapWrite st.heap c x } hinj hbdd hc1 hrest
          rw [hstable]
          simp [heapWrite]
      | none =>
          have hs := step_inj_bounded (i := idFn x) (c := st.nextCell)
            (v := x) hinj hbdd hx rfl
          have hc1 : alGet (alSet st.cache (idFn x) st.nextCell) id
              = some st.nextCell := hxid ▸ alGet_alSet_self
          refine ⟨st.nextCell, processItems_cache_preserve idFn rest _ hc1, ?_⟩
          have hstable := processItems_heap_stable idFn rest
            { st with
              heap := heapWrite st.heap st.nextCell x
              nextCell := st.nextCell + 1
              cache := alSet st.cache (idFn x) st.nextCell }
            hs.1 hs.2 hc1 hrest
          rw [hstable]
          simp [heapWrite]

/-- A surviving identity keeps its exact cell across a completed `set value`:
the loop never overwrites the binding and the pruning pass keeps every
incoming identity. -/
theorem setValue_cache_stable (idFn : T → I) {st : MemoizedArrayOfSignals T I}
    {id : I} {c : Nat} (items : List T)
    (hc : alGet st.cache id = some c) (hid : id ∈ items.map idFn) :
    alGet (setValue idFn st items).cache id = some c := by
  rw [setValue_cache]
  have hids := processItems_ids idFn items st
  rw [hids]
  rw [pruneFold_preserve hid _ _]
  exact processItems_cache_preserve idFn items st hc

/-- A pointwise-related pair of lists has equal images under pointwise-equal
maps. -/
theorem forall2_map_eq {α β γ : Type} {r : α → β → Prop} {f : α → γ} {g : β → γ}
    (h : ∀ x y, r x y → f x = g y) :
    ∀ {l1 : List α} {l2 : List β}, List.Forall₂ r l1 l2 → l1.map f = l2.map g := by
  intro l1 l2 hl
  induction hl with
  | nil => rfl
  | cons hr _ ih => simp only [List.map_cons, h _ _ hr, ih]

/-- When every incoming identity already has a cached cell, the loop touches
no cache entry and resolves each item to its cached cell. -/
theorem processItems_all_present (idFn : T → I) (items : List T) :
    ∀ st : MemoizedArrayOfSignals T I,
      (∀ x ∈ items, (alGet st.cache (idFn x)).isSome) →
      (processItems idFn st items).1.cache = st.cache ∧
      List.Forall₂ (fun x c => alGet st.cache (idFn x) = some c) items
        (processItems idFn st items).2.1 := by
  induction items with
  | nil => intro st _; exact ⟨rfl, List.Forall₂.nil⟩
  | cons x rest ih =>
    intro st hall
    have hx := hall x (List.mem_cons_self _ _)
    cases hxc : alGet st.cache (idFn x) with
    | none => rw [hxc] at hx; simp at hx
    | some c =>
        simp only [processItems, hxc]
        have ihr := ih { st with heap := heapWrite st.heap c x }
          (fun y hy => hall y (List.mem_cons_of_mem _ hy))
        exact ⟨ihr.1, List.Forall₂.cons hxc ihr.2⟩

section Exceptional2

variable {E : Type}

/-- The state carried by either outcome of the exception-aware loop. -/
def peState :
    (MemoizedArrayOfSignals T I × List Nat × List I) ⊕
      (MemoizedArrayOfSignals T I × E) → MemoizedArrayOfSignals T I
  | .inl r => r.1
  | .inr r => r.1

/-- The exception-aware loop never touches the storage signal, whether it
completes or raises. -/
theorem processItemsE_order (idFn : T → Except E I) (items : List T) :
    ∀ st : MemoizedArrayOfSignals T I,
      (peState (processItemsE idFn st items)).order = st.order ∧
      (peState (processItemsE idFn st items)).orderWrites = st.orderWrites := by
  induction items with
  | nil => intro st; exact ⟨rfl, rfl⟩
  | cons x rest ih =>
    intro st
    cases hid : idFn x with
    | error e => simp [processItemsE, hid, peState]
    | ok id =>
      cases hx : alGet st.cache id with
      | some c =>
          have h1 := ih { st with heap := heapWrite st.heap c x }
          cases hr : processItemsE idFn { st with heap := heapWrite st.heap c x } rest with
          | inl r =>
              rw [hr] at h1
              simp only [processItemsE, hid, hx, hr, peState] at h1 ⊢
              exact h1
          | inr r =>
              rw [hr] at h1
              simp only [processItemsE, hid, hx, hr, peState] at h1 ⊢
              exact h1
      | none =>
          have h1 := ih { st with
            heap := heapWrite st.heap st.nextCell x
            nextCell := st.nextCell + 1
            cache := alSet st.cache id st.nextCell }
          cases hr : processItemsE idFn { st with
              heap := heapWrite st.heap st.nextCell x
              nextCell := st.nextCell + 1
              cache := alSet st.cache id st.nextCell } rest with
          | inl r =>
              rw [hr] at h1
              simp only [processItemsE, hid, hx, hr, peState] at h1 ⊢
              exact h1
          | inr r =>
              rw [hr] at h1
              simp only [processItemsE, hid, hx, hr, peState] at h1 ⊢
              exact h1

/-- The exception-aware loop never removes or overwrites a cache binding,
whether it completes or raises. -/
theorem processItemsE_cache_preserve (idFn : T → Except E I) (items : List T) :
    ∀ (st : MemoizedArrayOfSignals T I) {i : I} {c : Nat},
      alGet st.cache i = some c →
      alGet (peState (processItemsE idFn st items)).cache i = some c := by
  induction items with
  | nil => intro st i c h; exact h
  | cons x rest ih =>
    intro st i c h
    cases hid : idFn x with
    | error e => simpa [processItemsE, hid, peState] using h
    | ok id =>
      cases hx : alGet st.cache id with
      | some c' =>
          have h1 := ih { st with heap := heapWrite st.heap c' x } h
          cases hr : processItemsE idFn { st with heap := heapWrite st.heap c' x } rest with
          | inl r =>
              rw [hr] at h1
              simp only [processItemsE, hid, hx, hr, peState] at h1 ⊢
              exact h1
          | inr r =>
              rw [hr] at h1
              simp only [processItemsE, hid, hx, hr, peState] at h1 ⊢
              exact h1
      | none =>
          have h0 : alGet (alSet st.cache id st.nextCell) i = some c :=
            alGet_alSet_preserve h hx
          have h1 := ih { st with
            heap := heapWrite st.heap st.nextCell x
            nextCell := st.nextCell + 1
            cache := alSet st.cache id st.nextCell } h0
          cases hr : processItemsE idFn { st with
              heap := heapWrite st.heap st.nextCell x
              nextCell := st.nextCell + 1
              cache := alSet st.cache id st.nextCell } rest with
          | inl r =>
              rw [hr] at h1
              simp only [processItemsE, hid, hx, hr, peState] at h1 ⊢
              exact h1
          | inr r =>
              rw [hr] at h1
              simp only [processItemsE, hid, hx, hr, peState] at h1 ⊢
              exact h1

/-- A raise during the previous-identity pass pinpoints a previous cell whose
current value makes `idFn` throw. -/
theorem mapIdsE_error (idFn : T → Except E I) (heap : Nat → T) :
    ∀ (l : List Nat) (e : E), mapIdsE idFn heap l = .error e →
      ∃ c ∈ l, idFn (heap c) = .error e := by
  intro l
  induction l with
  | nil => intro e h; simp [mapIdsE] at h
  | cons c rest ih =>
    intro e h
    cases hc : idFn (heap c) with
    | error e' =>
        simp only [mapIdsE, hc] at h
        injection h with h
        exact ⟨c, List.mem_cons_self _ _, h ▸ hc⟩
    | ok id =>
        cases hr : mapIdsE idFn heap rest with
        | error e' =>
            simp only [mapIdsE, hc, hr] at h
            injection h with h
            rcases ih e' hr with ⟨c', hc', he'⟩
            exact ⟨c', List.mem_cons_of_mem _ hc', h ▸ he'⟩
        | ok ids =>
            rw [mapIdsE, hc, hr] at h
            cases h

/-- A raise inside the loop splits the input at the first item whose identity
computation throws: the state handed back is exactly the state after
successfully processing the prefix before it. -/
theorem processItemsE_error_split (idFn : T → Except E I) (items : List T) :
    ∀ (st st' : MemoizedArrayOfSignals T I) (e : E),
      processItemsE idFn st items = .inr (st', e) →
      ∃ pre x post, items = pre ++ x :: post ∧ idFn x = .error e ∧
        ∃ ord ids, processItemsE idFn st pre = .inl (st', ord, ids) := by
  induction items with
  | nil => intro st st' e h; cases h
  | cons x rest ih =>
    intro st st' e h
    cases hid : idFn x with
    | error e' =>
        simp only [processItemsE, hid] at h
        injection h with h
        injection h with h1 h2
        refine ⟨[], x, rest, rfl, ?_, [], [], ?_⟩
        · rw [hid, h2]
        · rw [← h1]
          rfl
    | ok id =>
      cases hx : alGet st.cache id with
      | some c =>
          cases hr : processItemsE idFn { st with heap := heapWrite st.heap c x } rest with
          | inl r =>
              simp only [processItemsE, hid, hx, hr] at h
              cases h
          | inr r =>
              simp only [processItemsE, hid, hx, hr] at h
              rcases ih _ _ _ (h ▸ hr) with ⟨pre, y, post, hsplit, hy, ord, ids, hpre⟩
              refine ⟨x :: pre, y, post, by simp [hsplit], hy, c :: ord, id :: ids, ?_⟩
              simp only [processItemsE, hid, hx, hpre]
      | none =>
          cases hr : processItemsE idFn { st with
              heap := heapWrite st.heap st.nextCell x
              nextCell := st.nextCell + 1
              cache := alSet st.cache id st.nextCell } rest with
          | inl r =>
              simp only [processItemsE, hid, hx, hr] at h
              cases h
          | inr r =>
              simp only [processItemsE, hid, hx, hr] at h
              rcases ih _ _ _ (h ▸ hr) with ⟨pre, y, post, hsplit, hy, ord, ids, hpre⟩
              refine ⟨x :: pre, y, post, by simp [hsplit], hy, st.nextCell :: ord, id :: ids, ?_⟩
              simp only [processItemsE, hid, hx, hpre]

/-- Every item of a successfully processed prefix has a computable identity
and a cache entry retrievable from the resulting state. -/
theorem processItemsE_processed_cached (idFn : T → Except E I) (pre : List T) :
    ∀ (st st' : MemoizedArrayOfSignals T I) (ord : List Nat) (ids : List I),
      processItemsE idFn st pre = .inl (st', ord, ids) →
      ∀ y ∈ pre, ∃ i, idFn y = .ok i ∧ (alGet st'.cache i).isSome := by
  induction pre with
  | nil => intro st st' ord ids _ y hy; cases hy
  | cons x rest ih =>
    intro st st' ord ids h y hy
    cases hid : idFn x with
    | error e =>
        simp only [processItemsE, hid] at h
        cases h
    | ok id =>
      cases hx : alGet st.cache id with
      | some c =>
          cases hr : processItemsE idFn { st with heap := heapWrite st.heap c x } rest with
          | inr r =>
              simp only [processItemsE, hid, hx, hr] at h
              cases h
          | inl r =>
              simp only [processItemsE, hid, hx, hr] at h
              cases h
              rcases List.mem_cons.mp hy with rfl | hyr
              · refine ⟨id, hid, ?_⟩
                have hp := processItemsE_cache_preserve idFn rest
                  { st with heap := heapWrite st.heap c y } (i := id) (c := c) hx
                rw [hr] at hp
                simp only [peState] at hp
                rw [hp]
                rfl
              · have hi := ih _ _ _ _ hr y hyr
                rcases hi with ⟨i, hi1, hsome⟩
                exact ⟨i, hi1, hsome⟩
      | none =>
          cases hr : processItemsE idFn { st with
              heap := heapWrite st.heap st.nextCell x
              nextCell := st.nextCell + 1
              cache := alSet st.cache id st.nextCell } rest with
          | inr r =>
              simp only [processItemsE, hid, hx, hr] at h
              cases h
          | inl r =>
              simp only [processItemsE, hid, hx, hr] at h
              cases h
              rcases List.mem_cons.mp hy with rfl | hyr
              · refine ⟨id, hid, ?_⟩
                have hp := processItemsE_cache_preserve idFn rest
                  { st with
                    heap := heapWrite st.heap st.nextCell y
                    nextCell := st.nextCell + 1
                    cache := alSet st.cache id st.nextCell }
                  (i := id) (c := st.nextCell) alGet_alSet_self
                rw [hr] at hp
                simp only [peState] at hp
                rw [hp]
                rfl
              · have hi := ih _ _ _ _ hr y hyr
                rcases hi with ⟨i, hi1, hsome⟩
                exact ⟨i, hi1, hsome⟩

end Exceptional2

end MemoizedArrayOfSignals

end MAOS

section MC

variable {T I : Type} [DecidableEq I] [DecidableEq T] [Inhabited T]

/-- State of a `MemoizedComputeds<T, I, R>` instance (the derived keyed
collection).  Derived cells (`computed(() => transform(sig))`) are named by
their allocation number; their recomputed values are determined by the source
cell they wrap, so only the identity bookkeeping is represented.

* `dcache` models the private `#cache : Map<I, ReadonlySignal<R>>`;
* `dorder` is the list of derived cells most recently produced by the
  `#storage` computed;
* `nextD` is the allocation counter for fresh `computed(...)` calls. -/
structure MemoizedComputeds (I : Type) where
  dcache : List (I × Nat)
  dorder : List Nat
  nextD : Nat

namespace MemoizedComputeds

open MemoizedArrayOfSignals in
/-- The mapping step of the `#storage` computed: for each source cell, resolve
its identity via the source's `getID` (`idFn(sig.peek())`), reuse the cached
derived cell when present, otherwise allocate a fresh one and cache it. -/
def mcGo (idFn : T → I) (src : MemoizedArrayOfSignals T I)
    (mc : MemoizedComputeds I) :
    List Nat → MemoizedComputeds I × List Nat
  | [] => (mc, [])
  | c :: rest =>
    let id := idFn (src.heap c)
    match alGet mc.dcache id with
    | some d =>
        let r := mcGo idFn src mc rest
        (r.1, d :: r.2)
    | none =>
        let d := mc.nextD
        let mc1 : MemoizedComputeds I :=
          { dcache := alSet mc.dcache id d, dorder := mc.dorder, nextD := d + 1 }
        let r := mcGo idFn src mc1 rest
        (r.1, d :: r.2)

open MemoizedArrayOfSignals in
/-- One recomputation of the `#storage` computed of `MemoizedComputeds`
(part_000 lines 36–56): map the source order through the cache, then prune
every cached identity that no longer resolves through the source's
`getByID`. -/
def mcRecompute (idFn : T → I) (src : MemoizedArrayOfSignals T I)
    (mc : MemoizedComputeds I) : MemoizedComputeds I :=
  let r := mcGo idFn src mc src.order
  { dcache := r.1.dcache.filter (fun p => (alGet src.cache p.1).isSome)
    dorder := r.2
    nextD := r.1.nextD }

open MemoizedArrayOfSignals in
/-- The mapping step never removes or overwrites an existing derived-cell
binding. -/
theorem mcGo_preserve (idFn : T → I) (src : MemoizedArrayOfSignals T I)
    (ord : List Nat) :
    ∀ (mc : MemoizedComputeds I) {id : I} {d : Nat},
      alGet mc.dcache id = some d →
      alGet (mcGo idFn src mc ord).1.dcache id = some d := by
  induction ord with
  | nil => intro mc id d h; exact h
  | cons c rest ih =>
    intro mc id d h
    simp only [mcGo]
    cases hx : alGet mc.dcache (idFn (src.heap c)) with
    | some d' => exact ih mc h
    | none => exact ih _ (alGet_alSet_preserve h hx)

open MemoizedArrayOfSignals in
/-- After the mapping step, every identity appearing in the processed order
has a derived-cell binding. -/
theorem mcGo_processed (idFn : T → I) (src : MemoizedArrayOfSignals T I)
    (ord : List Nat) :
    ∀ (mc : MemoizedComputeds I) (c : Nat), c ∈ ord →
      (alGet (mcGo idFn src mc ord).1.dcache (idFn (src.heap c))).isSome := by
  induction ord with
  | nil => intro mc c h; cases h
  | cons c0 rest ih =>
    intro mc c hmem
    simp only [mcGo]
    rcases List.mem_cons.mp hmem with rfl | hrest
    · cases hx : alGet mc.dcache (idFn (src.heap c)) with
      | some d =>
          rw [mcGo_preserve idFn src rest mc hx]
          rfl
      | none =>
          rw [mcGo_preserve idFn src rest _
            (alGet_alSet_self (l := mc.dcache) (i := idFn (src.heap c))
              (v := mc.nextD))]
          rfl
    · cases hx : alGet mc.dcache (idFn (src.heap c0)) with
      | some d => exact ih mc c hrest
      | none => exact ih _ c hrest

open MemoizedArrayOfSignals in
/-- A derived cell whose identity still resolves through the source survives a
recomputation unchanged: it is reused by the mapping step and kept by the
pruning pass. -/
theorem mcRecompute_stable {idFn : T → I} {src : MemoizedArrayOfSignals T I}
    {mc : MemoizedComputeds I} {id : I} {d : Nat}
    (h1 : alGet mc.dcache id = some d)
    (h2 : (alGet src.cache id).isSome) :
    alGet (mcRecompute idFn src mc).dcache id = some d := by
  simp only [mcRecompute]
  rw [alGet_filter_of_holds (q := fun i => (alGet src.cache i).isSome) h2]
  exact mcGo_preserve idFn src src.order mc h1

open MemoizedArrayOfSignals in
/-- A recomputation prunes every derived cell whose identity no longer
resolves through the source's `getByID`. -/
theorem mcRecompute_prunes {idFn : T → I} {src : MemoizedArrayOfSignals T I}
    (mc : MemoizedComputeds I) {id : I}
    (h : alGet src.cache id = none) :
    alGet (mcRecompute idFn src mc).dcache id = none := by
  simp only [mcRecompute]
  exact alGet_filter_of_fails (q := fun i => (alGet src.cache i).isSome)
    (by simp [h])

open MemoizedArrayOfSignals in
/-- After a recomputation, every identity of the source order that resolves
through the source cache has a derived cell. -/
theorem mcRecompute_present {idFn : T → I} {src : MemoizedArrayOfSignals T I}
    (mc : MemoizedComputeds I) {c : Nat}
    (hc : c ∈ src.order)
    (h2 : (alGet src.cache (idFn (src.heap c))).isSome) :
    (alGet (mcRecompute idFn src mc).dcache (idFn (src.heap c))).isSome := by
  simp only [mcRecompute]
  rw [alGet_filter_of_holds (q := fun i => (alGet src.cache i).isSome) h2]
  exact mcGo_processed idFn src src.order mc c hc

end MemoizedComputeds

end MC

section ComplexSignal

/-- JavaScript runtime values as far as the `complexSignal` proxy handler
distinguishes them: `undef`/`jnull`/`prim` are primitives and `null`,
`sig r` is a `Signal` instance, `obj r` a reference to a plain
object/array/map/set, `jfn r` a function, and `proxy r t` a proxy with
identity `r` wrapping target `t` (membership of the `proxies` WeakSet is
exactly being a `proxy` value, since every proxy in the system is created by
`wrap`). -/
inductive JVal where
  | undef
  | jnull
  | prim (n : Int)
  | sig (r : Nat)
  | obj (r : Nat)
  | jfn (r : Nat)
  | proxy (r : Nat) (target : Nat)
deriving DecidableEq

namespace ComplexSignal

/-- `typeof v === 'object'` — true for plain objects, proxies, Signal
instances, and crucially for `null`. -/
def typeofObject : JVal → Bool
  | .jnull => true
  | .obj _ => true
  | .proxy _ _ => true
  | .sig _ => true
  | _ => false

/-- `proxies.has(v)`: the WeakSet membership test (false, without throwing,
on any non-proxy value including `null`). -/
def proxiesHas : JVal → Bool
  | .proxy _ _ => true
  | _ => false

/-- `v instanceof Signal`. -/
def isSignal : JVal → Bool
  | .sig _ => true
  | _ => false

/-- The concrete shape of a heap object, inspected by the handler via
`Array.isArray(target)`, `target instanceof Map`, `target instanceof Set`. -/
inductive Shape where
  | plain
  | arr
  | jmap
  | jset
deriving DecidableEq

/-- Entries of a Map-shaped (or, degenerately, Set-shaped) target. -/
abbrev MSData := List (Int × Int)

/-- The heap of raw (unproxied) objects reachable from a `complexSignal`:
property tables, shapes, map/set contents, and the allocation counter for
fresh proxy identities. -/
structure Heap where
  fields : Nat → String → JVal
  shape : Nat → Shape
  msData : Nat → MSData
  nextRef : Nat

def setField (h : Heap) (t : Nat) (prop : String) (v : JVal) : Heap :=
  { h with fields := fun r p => if r = t ∧ p = prop then v else h.fields r p }

def setMsData (h : Heap) (t : Nat) (d : MSData) : Heap :=
  { h with msData := fun r => if r = t then d else h.msData r }

/-- The array methods the handler wraps in `batch(...)`. -/
def batchTheseArrayMethods : List String :=
  ["clear", "copyWithin", "fill", "pop", "push", "reverse", "shift", "sort",
   "splice", "unshift"]

/-- The map/set methods the handler intercepts with an eager `update()`. -/
def mapSetMutationMethods : List String :=
  ["add", "clear", "delete", "set"]

inductive JsErr where
  | typeError
deriving DecidableEq

/-- What `handler.get` hands back: a plain value, or one of the three kinds of
function the handler manufactures (a batch-wrapped array mutator, an
update-then-mutate map/set mutator, or a plain bound map/set method). -/
inductive GetResult where
  | val (v : JVal)
  | batchedArrayMethod (r : Nat)
  | msMutator (r : Nat)
  | boundMsMethod (r : Nat)
deriving DecidableEq

/-- `handler.get(target, prop, receiver)` (part_002 lines 37–96), with its
branches in source order:
1. nested `Signal`s are returned as-is;
2. `typeof original === 'object' && !proxies.has(original)` — wrap the value
   (`new Proxy(original, handler)` throws a `TypeError` when `original` is
   not an object, in particular when it is `null`), cache the proxy into the
   target property (`target[prop] = wrap(original)`), and return it;
3. on array-shaped targets, listed mutator methods are returned wrapped in
   `batch`;
4. other array reads return the original;
5. on map/set-shaped targets, mutation methods become update-then-mutate
   closures and other methods are returned bound to the target;
6. otherwise the original value is returned. -/
def handlerGet (h : Heap) (t : Nat) (prop : String) :
    Except JsErr (Heap × GetResult) :=
  let original := h.fields t prop
  if isSignal original then .ok (h, .val original)
  else if typeofObject original ∧ ¬ proxiesHas original then
    match original with
    | .obj o =>
        let p := h.nextRef
        let h1 := setField { h with nextRef := p + 1 } t prop (.proxy p o)
        .ok (h1, .val (.proxy p o))
    | _ => .error .typeError
  else if h.shape t = .arr ∧ prop ∈ batchTheseArrayMethods then
    match original with
    | .jfn f => .ok (h, .batchedArrayMethod f)
    | _ => .ok (h, .val original)
  else if h.shape t = .arr then .ok (h, .val original)
  else
    match original with
    | .jfn f =>
        if h.shape t = .jmap ∨ h.shape t = .jset then
          if prop ∈ mapSetMutationMethods then .ok (h, .msMutator f)
          else .ok (h, .boundMsMethod f)
        else .ok (h, .val original)
    | _ => .ok (h, .val original)

/-- The reactive state owned by one `complexSignal`: the raw object heap, the
inner root value held by the backing signal's `{ inner }` record (the outward
identity returned by `get value()`), the generation of the outer record, and
the number of notifications delivered to subscribers of the owning cell. -/
structure CS where
  heap : Heap
  rootInner : JVal
  rootGen : Nat
  notifies : Nat

/-- `update()` (part_002 lines 31–33): re-assign the backing signal with a
fresh outer record around the unchanged `inner` — always a new object, so the
write always fires subscribers (the call sites here are not inside `batch`),
and the inner root identity is untouched. -/
def update (cs : CS) : CS :=
  { cs with rootGen := cs.rootGen + 1, notifies := cs.notifies + 1 }

/-- Observable events during a handler-made operation, in order. -/
inductive Ev where
  | write
  | mutate
  | notify
  | batchStart
  | batchEnd
deriving DecidableEq

/-- `handler.set(target, prop, newValue, receiver)` (part_002 lines 97–101):
`Reflect.set` performs the assignment on the target, then `update()` fires
the owning cell's subscribers. -/
def handlerSet (cs : CS) (t : Nat) (prop : String) (v : JVal) :
    CS × List Ev :=
  let cs1 := { cs with heap := setField cs.heap t prop v }
  (update cs1, [Ev.write, Ev.notify])

/-- The intercepted map/set mutators, with JavaScript semantics:
`Map.prototype.set` replaces-or-appends, `delete` removes a key, `clear`
empties, and `Set.prototype.add` appends the key when absent. -/
inductive MSOp where
  | madd (k : Int)
  | mclear
  | mdelete (k : Int)
  | mset (k v : Int)
deriving DecidableEq

def applyMSOp : MSOp → MSData → MSData
  | .mset k v, d => alSet d k v
  | .mdelete k, d => d.filter (fun p => p.1 ≠ k)
  | .mclear, _ => []
  | .madd k, d => if d.any (fun p => p.1 = k) then d else d ++ [(k, k)]

/-- The closure returned by `handler.get` for a map/set mutation method
(part_002 lines 77–83): it calls `update()` first — synchronously notifying
subscribers, outside any `batch` scope — and only then applies the native
mutation to the target.  Returns the new state, the event trace, and the
map/set contents a synchronous subscriber observes at notification time. -/
def msIntercept (cs : CS) (t : Nat) (op : MSOp) : CS × List Ev × MSData :=
  let observed := cs.heap.msData t
  let cs1 := update cs
  let cs2 := { cs1 with heap := setMsData cs1.heap t (applyMSOp op (cs1.heap.msData t)) }
  (cs2, [Ev.notify, Ev.mutate], observed)

/-- Reading a property that already holds a cached proxy returns it as-is
(the `proxies.has` test stops re-wrapping), on every target shape. -/
theorem handlerGet_proxy {h : Heap} {t : Nat} {prop : String} {p o : Nat}
    (hf : h.fields t prop = .proxy p o) :
    handlerGet h t prop = .ok (h, .val (.proxy p o)) := by
  simp only [handlerGet, hf, isSignal, typeofObject, proxiesHas]
  simp

end ComplexSignal

end ComplexSignal

section Claims

open MemoizedArrayOfSignals MemoizedComputeds ComplexSignal

/-- A concrete identity function used by the witnesses below (elements are
their own identities, as in the string-element tests of the repository). -/
def natId : Nat → Nat := fun n => n

/-- A small concrete collection used by the witnesses below. -/
def exSt : MemoizedArrayOfSignals Nat Nat := construct natId [10, 20]

/-- C1: reassigning a keyed collection's value with an array whose elements
map (via `idFn`, in order) to exactly the same cell instances as the previous
order makes the element-by-identity comparison succeed, so the order cell is
not reassigned and the collection-level subscription does not fire — the
order and the collection-level write count are unchanged, even though the
loop updated element cells in place. -/
theorem c1_minimal_notification {T I : Type} [DecidableEq I] [DecidableEq T]
    [Inhabited T] (idFn : T → I) (st : MemoizedArrayOfSignals T I)
    (newItems : List T)
    (hsame : (processItems idFn st newItems).2.1 = st.order) :
    (setValue idFn st newItems).order = st.order ∧
    (setValue idFn st newItems).orderWrites = st.orderWrites := by
  have h := setValue_order_writes idFn st newItems
  rw [if_pos hsame.symm] at h
  exact ⟨congrArg Prod.fst h, congrArg Prod.snd h⟩

/-- C1 witness: reassigning `[10, 20]` over a collection built from
`[10, 20]` resolves to the same cells in the same order, and the storage
signal is not written. -/
theorem c1_minimal_notification_witness :
    (processItems natId exSt [10, 20]).2.1 = exSt.order ∧
    (setValue natId exSt [10, 20]).order = exSt.order ∧
    (setValue natId exSt [10, 20]).orderWrites = exSt.orderWrites :=
  ⟨by decide, c1_minimal_notification natId exSt [10, 20] (by decide)⟩

/-- C2: identity stability.  For the keyed collection, a cached cell survives
any finite sequence of reconciling reassignments whose arrays all contain its
identity — `getByID` returns the same cell instance after the sequence.  For
the derived keyed collection, a cached derived cell likewise survives any
finite sequence of order recomputations against sources that all resolve its
identity. -/
theorem c2_identity_stability {T I : Type} [DecidableEq I] [DecidableEq T]
    [Inhabited T] (idFn : T → I) :
    (∀ (st : MemoizedArrayOfSignals T I) (id : I) (c : Nat)
       (batches : List (List T)),
       alGet st.cache id = some c →
       (∀ b ∈ batches, id ∈ b.map idFn) →
       getByID (batches.foldl (setValue idFn) st) id = some c) ∧
    (∀ (mc : MemoizedComputeds I) (id : I) (d : Nat)
       (srcs : List (MemoizedArrayOfSignals T I)),
       alGet mc.dcache id = some d →
       (∀ s ∈ srcs, (alGet s.cache id).isSome) →
       alGet ((srcs.foldl (fun m s => mcRecompute idFn s m) mc)).dcache id
         = some d) := by
  constructor
  · intro st id c batches
    induction batches generalizing st with
    | nil => intro hc _; exact hc
    | cons b rest ih =>
      intro hc hall
      simp only [List.foldl_cons]
      exact ih _
        (setValue_cache_stable idFn b hc (hall b (List.mem_cons_self _ _)))
        (fun b' hb' => hall b' (List.mem_cons_of_mem _ hb'))
  · intro mc id d srcs
    induction srcs generalizing mc with
    | nil => intro hd _; exact hd
    | cons s rest ih =>
      intro hd hall
      simp only [List.foldl_cons]
      exact ih _
        (mcRecompute_stable hd (hall s (List.mem_cons_self _ _)))
        (fun s' hs' => hall s' (List.mem_cons_of_mem _ hs'))

/-- C2 witness: the cell cached for identity `20` survives the reassignment
sequence `[20, 30]`, `[30, 20]`, and the derived cell cached for `20`
survives two recomputations against the source. -/
theorem c2_identity_stability_witness :
    getByID ([[20, 30], [30, 20]].foldl (setValue natId) exSt) 20 = some 1 ∧
    alGet (([exSt, exSt].foldl (fun m s => mcRecompute natId s m)
      (mcRecompute natId exSt ⟨[], [], 0⟩))).dcache 20 = some 1 :=
  ⟨(c2_identity_stability natId).1 exSt 20 1 [[20, 30], [30, 20]]
      (by decide) (by decide),
   (c2_identity_stability natId).2 (mcRecompute natId exSt ⟨[], [], 0⟩) 20 1
      [exSt, exSt] (by decide) (by decide)⟩

/-- C3: the claim requires that after any completed operation the cache keys
equal the identities of the cells in the order, and that removal via `pop`
makes `getByID` absent.  The code's `pop()` removes the last cell from the
storage array but never deletes its cache entry (unlike `shift()` and
`splice()`, which do): after popping the cell for identity `20`, the order
holds only identity `10`, yet the cache still holds both keys and
`getByID 20` still returns the popped cell. -/
theorem c3_pop_leaves_cache_entry :
    (pop exSt).1.order.map (fun c => natId ((pop exSt).1.heap c)) = [10] ∧
    ((pop exSt).1.cache.map Prod.fst) = [10, 20] ∧
    getByID (pop exSt).1 20 = some 1 := by decide

/-- C4: reassigning a well-formed keyed collection with an array carrying the
same set of identities in a different positional order writes the order cell
exactly once — the collection-level write count goes up by exactly one. -/
theorem c4_reorder_notifies_once {T I : Type} [DecidableEq I] [DecidableEq T]
    [Inhabited T] (idFn : T → I) (st : MemoizedArrayOfSignals T I)
    (items : List T)
    (hWF : WF idFn st)
    (hsub : ∀ x ∈ items, idFn x ∈ st.order.map (fun c => idFn (st.heap c)))
    (hsup : ∀ c ∈ st.order, idFn (st.heap c) ∈ items.map idFn)
    (hne : items.map idFn ≠ st.order.map (fun c => idFn (st.heap c))) :
    (setValue idFn st items).orderWrites = st.orderWrites + 1 ∧
    (setValue idFn st items).order = (processItems idFn st items).2.1 := by
  have hall : ∀ x ∈ items, (alGet st.cache (idFn x)).isSome := by
    intro x hx
    rcases List.mem_map.mp (hsub x hx) with ⟨c, hc, heq⟩
    rw [← heq, hWF.2.2 c hc]
    rfl
  have hap := processItems_all_present idFn items st hall
  have hneq : st.order ≠ (processItems idFn st items).2.1 := by
    intro heq
    apply hne
    have hf2 : List.Forall₂ (fun x c => alGet st.cache (idFn x) = some c)
        items st.order := heq ▸ hap.2
    exact forall2_map_eq
      (r := fun x c => alGet st.cache (idFn x) = some c)
      (f := idFn) (g := fun c => idFn (st.heap c))
      (fun x c hr => (hWF.id_of hr).symm) hf2
  have h := setValue_order_writes idFn st items
  rw [if_neg hneq] at h
  exact ⟨congrArg Prod.snd h, congrArg Prod.fst h⟩

/-- C4 witness: reassigning `[20, 10]` over the collection built from
`[10, 20]` (same identity set, different order) writes the storage signal
exactly once. -/
theorem c4_reorder_notifies_once_witness :
    WF natId exSt ∧
    (setValue natId exSt [20, 10]).orderWrites = exSt.orderWrites + 1 :=
  ⟨by decide,
   (c4_reorder_notifies_once natId exSt [20, 10] (by decide) (by decide)
      (by decide) (by decide)).1⟩

/-- C5: lifecycle of derived cells.  A derived cell cached for an identity
that every source along a sequence of recomputations still resolves is reused
unchanged each time (created at most once over the identity's lifetime,
however often the derived order recomputes — in particular a source reversal
reorders the output while preserving derived-cell identity); a recomputation
prunes the entry exactly when the identity no longer resolves through the
source: absent source identity forces absence, and a present source order
cell forces presence. -/
theorem c5_derived_cell_lifecycle {T I : Type} [DecidableEq I] [DecidableEq T]
    [Inhabited T] (idFn : T → I) :
    (∀ (mc : MemoizedComputeds I) (id : I) (d : Nat)
       (srcs : List (MemoizedArrayOfSignals T I)),
       alGet mc.dcache id = some d →
       (∀ s ∈ srcs, (alGet s.cache id).isSome) →
       alGet ((srcs.foldl (fun m s => mcRecompute idFn s m) mc)).dcache id
         = some d) ∧
    (∀ (mc : MemoizedComputeds I) (id : I)
       (src : MemoizedArrayOfSignals T I),
       alGet src.cache id = none →
       alGet (mcRecompute idFn src mc).dcache id = none) ∧
    (∀ (mc : MemoizedComputeds I) (src : MemoizedArrayOfSignals T I)
       (c : Nat), c ∈ src.order →
       (alGet src.cache (idFn (src.heap c))).isSome →
       (alGet (mcRecompute idFn src mc).dcache (idFn (src.heap c))).isSome) := by
  refine ⟨?_, ?_, ?_⟩
  · intro mc id d srcs
    induction srcs generalizing mc with
    | nil => intro hd _; exact hd
    | cons s rest ih =>
      intro hd hall
      simp only [List.foldl_cons]
      exact ih _
        (mcRecompute_stable hd (hall s (List.mem_cons_self _ _)))
        (fun s' hs' => hall s' (List.mem_cons_of_mem _ hs'))
  · intro mc id src h
    exact mcRecompute_prunes mc h
  · intro mc src c hc h2
    exact mcRecompute_present mc hc h2

/-- C5 witness: the derived cell for identity `10` survives a recomputation
against the reversed source (object identity preserved under reversal), the
entry for `20` is pruned once the source drops it, and identity `10` is
present after a recomputation over the source order. -/
theorem c5_derived_cell_lifecycle_witness :
    alGet (([{ exSt with order := [1, 0] }].foldl
        (fun m s => mcRecompute natId s m)
        (mcRecompute natId exSt ⟨[], [], 0⟩))).dcache 10 = some 0 ∧
    alGet (mcRecompute natId (setValue natId exSt [10])
        (mcRecompute natId exSt ⟨[], [], 0⟩)).dcache 20 = none ∧
    (alGet (mcRecompute natId exSt ⟨[], [], 0⟩).dcache
        (natId (exSt.heap 0))).isSome :=
  ⟨(c5_derived_cell_lifecycle natId).1 (mcRecompute natId exSt ⟨[], [], 0⟩)
      10 0 [{ exSt with order := [1, 0] }] (by decide) (by decide),
   (c5_derived_cell_lifecycle natId).2.1 (mcRecompute natId exSt ⟨[], [], 0⟩)
      20 (setValue natId exSt [10]) (by decide),
   (c5_derived_cell_lifecycle natId).2.2 ⟨[], [], 0⟩ exSt 0 (by decide)
      (by decide)⟩

/-- C6: the `computedById(id)` view resolves the cache lookup against the
current state on every recomputation: while `id` is cached it yields the
cell's current value; after a reassignment whose array contains `id` it
yields the value of the last incoming element with that identity (appearing
or changing, even if `id` did not exist before); after a reassignment whose
array omits `id` it yields the absent sentinel. -/
theorem c6_computed_by_id_tracks {T I : Type} [DecidableEq I] [DecidableEq T]
    [Inhabited T] (idFn : T → I) (st : MemoizedArrayOfSignals T I) (id : I)
    (items : List T) (hWF : WF idFn st) :
    (∀ c, alGet st.cache id = some c →
       computedByIdRead st id = some (st.heap c)) ∧
    (id ∈ items.map idFn →
       computedByIdRead (setValue idFn st items) id = lastFor idFn items id) ∧
    (id ∉ items.map idFn →
       computedByIdRead (setValue idFn st items) id = none) := by
  refine ⟨?_, ?_, ?_⟩
  · intro c hc
    simp [computedByIdRead, hc]
  · intro hid
    rcases processItems_last idFn items st hWF.inj hWF.bounded hid with
      ⟨c, hcache, hheap⟩
    simp only [computedByIdRead, setValue_cache, setValue_heap]
    rw [processItems_ids idFn items st, pruneFold_preserve hid _ _, hcache]
    simpa using hheap
  · intro hid
    simp only [computedByIdRead, setValue_cache]
    rw [processItems_ids idFn items st]
    cases hc : alGet st.cache id with
    | none =>
        rw [pruneFold_none _ _
          (by rw [processItems_cache_untouched idFn items st hid]; exact hc)]
        rfl
    | some c =>
        rw [pruneFold_delete hid _ _
          (List.mem_map.mpr ⟨c, hWF.mem_order hc, hWF.id_of hc⟩)]
        rfl

/-- C6 witness: over the collection built from `[10, 20]`, reassigning
`[30, 20]` makes the view for `20` resolve to `20` (the last incoming value
with that identity) and the view for `10` resolve to the absent sentinel. -/
theorem c6_computed_by_id_tracks_witness :
    WF natId exSt ∧
    computedByIdRead (setValue natId exSt [30, 20]) 20
      = lastFor natId [30, 20] 20 ∧
    computedByIdRead (setValue natId exSt [30, 20]) 10 = none :=
  ⟨by decide,
   (c6_computed_by_id_tracks natId exSt 20 [30, 20] (by decide)).2.1
     (by decide),
   (c6_computed_by_id_tracks natId exSt 10 [30, 20] (by decide)).2.2
     (by decide)⟩

/-- C7: a raise from the caller-supplied `idFn` during `set value` propagates
unmodified and synchronously out of the setter, aborting it: the order cell is
not written (order and write count unchanged), every pre-existing cache
binding is still retrievable, and either the raise happened while mapping the
previous identities (leaving the state untouched) or the input splits at the
raising item, the resulting state being exactly the state after processing
the prefix before it — with every prefix identity still retrievable by
`getByID`. -/
theorem c7_idfn_exception {T I E : Type} [DecidableEq I] [DecidableEq T]
    [Inhabited T] (idFn : T → Except E I) (st : MemoizedArrayOfSignals T I)
    (items : List T) (e : E)
    (h : (setValueE idFn st items).2 = some e) :
    (setValueE idFn st items).1.order = st.order ∧
    (setValueE idFn st items).1.orderWrites = st.orderWrites ∧
    (∀ i c, alGet st.cache i = some c →
       alGet (setValueE idFn st items).1.cache i = some c) ∧
    (((setValueE idFn st items).1 = st ∧
        ∃ c ∈ st.order, idFn (st.heap c) = .error e) ∨
     ∃ pre x post, items = pre ++ x :: post ∧ idFn x = .error e ∧
       (∃ ord ids, processItemsE idFn st pre
          = .inl ((setValueE idFn st items).1, ord, ids)) ∧
       ∀ y ∈ pre, ∃ i, idFn y = .ok i ∧
         (alGet (setValueE idFn st items).1.cache i).isSome) := by
  cases hm : mapIdsE idFn st.heap st.order with
  | error e0 =>
      have hst : setValueE idFn st items = (st, some e0) := by
        simp [setValueE, hm]
      rw [hst] at h ⊢
      injection h with h
      subst h
      exact ⟨rfl, rfl, fun i c hc => hc,
        Or.inl ⟨rfl, mapIdsE_error idFn st.heap st.order e0 hm⟩⟩
  | ok prevIds =>
      cases hp : processItemsE idFn st items with
      | inl r =>
          simp only [setValueE, hm, hp] at h
          split at h <;> simp at h
      | inr r =>
          simp only [setValueE, hm, hp] at h ⊢
          injection h with h
          subst h
          have hord := processItemsE_order idFn items st
          rw [hp] at hord
          simp only [peState] at hord
          have hpr : ∀ i c, alGet st.cache i = some c →
              alGet r.1.cache i = some c := by
            intro i c hc
            have := processItemsE_cache_preserve idFn items st hc
            rw [hp] at this
            simpa only [peState] using this
          refine ⟨hord.1, hord.2, hpr, Or.inr ?_⟩
          rcases processItemsE_error_split idFn items st r.1 r.2 hp with
            ⟨pre, x, post, hsplit, hx, ord, ids, hpre⟩
          exact ⟨pre, x, post, hsplit, hx, ⟨ord, ids, hpre⟩,
            processItemsE_processed_cached idFn pre st r.1 ord ids hpre⟩

/-- The throwing identity function used by the C7 witness: it raises on the
value `13`. -/
def exIdE : Nat → Except String Nat :=
  fun n => if n = 13 then .error "boom" else .ok n

/-- C7 witness: reassigning `[20, 13, 30]` over the collection built from
`[10, 20]` raises `"boom"` at the second item; the order cell is untouched
and the cell for the already-processed identity `20` — updated in place to
`20` before the raise — is still retrievable. -/
theorem c7_idfn_exception_witness :
    (setValueE exIdE exSt [20, 13, 30]).2 = some "boom" ∧
    (setValueE exIdE exSt [20, 13, 30]).1.order = exSt.order ∧
    (setValueE exIdE exSt [20, 13, 30]).1.orderWrites = exSt.orderWrites :=
  ⟨by decide,
   (c7_idfn_exception exIdE exSt [20, 13, 30] "boom" (by decide)).1,
   (c7_idfn_exception exIdE exSt [20, 13, 30] "boom" (by decide)).2.1⟩

/-- C8: deep wrapper identity.  Reading an object-valued property wraps it
once, caching the proxy into the target (`target[prop] = wrap(original)`), so
a second read of the same property returns the identical proxy object and
leaves the heap untouched.  Writing any property through the `set` trap keeps
the outward identity of the wrapped root unchanged (only the outer `{ inner }`
record is replaced) while firing the root-level subscription exactly once,
with the notification after the assignment. -/
theorem c8_deep_wrapper_identity (cs : ComplexSignal.CS) (t : Nat)
    (prop : String) (o : Nat)
    (hfield : cs.heap.fields t prop = .obj o)
    (t' : Nat) (prop' : String) (v : JVal) :
    (∃ h1 p, ComplexSignal.handlerGet cs.heap t prop
        = .ok (h1, .val (.proxy p o)) ∧
      ComplexSignal.handlerGet h1 t prop = .ok (h1, .val (.proxy p o))) ∧
    (ComplexSignal.handlerSet cs t' prop' v).1.rootInner = cs.rootInner ∧
    (ComplexSignal.handlerSet cs t' prop' v).1.notifies = cs.notifies + 1 ∧
    (ComplexSignal.handlerSet cs t' prop' v).1.heap.fields t' prop' = v ∧
    (ComplexSignal.handlerSet cs t' prop' v).2 = [Ev.write, Ev.notify] := by
  refine ⟨?_, rfl, rfl, ?_, rfl⟩
  · refine ⟨ComplexSignal.setField
        { cs.heap with nextRef := cs.heap.nextRef + 1 } t prop
        (.proxy cs.heap.nextRef o),
      cs.heap.nextRef, ?_, ?_⟩
    · simp [ComplexSignal.handlerGet, hfield, ComplexSignal.isSignal,
        ComplexSignal.typeofObject, ComplexSignal.proxiesHas]
    · exact ComplexSignal.handlerGet_proxy (by simp [ComplexSignal.setField])
  · simp [ComplexSignal.handlerSet, ComplexSignal.update,
      ComplexSignal.setField]

/-- The heap of the concrete `complexSignal` used by the deep-wrapper
witnesses: ref 0 is a plain object with an object-valued property `"child"`
(ref 1) and a null-valued property `"gone"`; ref 2 is a Map whose `"set"`
property is the native function ref 7. -/
def exHeap : ComplexSignal.Heap :=
  { fields := fun r p =>
      if r = 0 ∧ p = "child" then .obj 1
      else if r = 0 ∧ p = "gone" then .jnull
      else if r = 2 ∧ p = "set" then .jfn 7
      else .undef
    shape := fun r => if r = 2 then .jmap else .plain
    msData := fun r => if r = 2 then [(1, 2)] else []
    nextRef := 3 }

/-- The concrete `complexSignal` state used by the deep-wrapper witnesses. -/
def exCS : ComplexSignal.CS :=
  { heap := exHeap, rootInner := .proxy 9 0, rootGen := 0, notifies := 0 }

/-- C8 witness: reading `"child"` twice on the concrete wrapper yields the
identical proxy, and a property write keeps the root identity while notifying
once. -/
theorem c8_deep_wrapper_identity_witness :
    exCS.heap.fields 0 "child" = .obj 1 ∧
    ((∃ h1 p, ComplexSignal.handlerGet exCS.heap 0 "child"
        = .ok (h1, .val (.proxy p 1)) ∧
      ComplexSignal.handlerGet h1 0 "child" = .ok (h1, .val (.proxy p 1))) ∧
    (ComplexSignal.handlerSet exCS 0 "tag" (.prim 5)).1.rootInner
        = exCS.rootInner ∧
    (ComplexSignal.handlerSet exCS 0 "tag" (.prim 5)).1.notifies
        = exCS.notifies + 1 ∧
    (ComplexSignal.handlerSet exCS 0 "tag" (.prim 5)).1.heap.fields 0 "tag"
        = .prim 5 ∧
    (ComplexSignal.handlerSet exCS 0 "tag" (.prim 5)).2
        = [Ev.write, Ev.notify]) :=
  ⟨by decide,
   c8_deep_wrapper_identity exCS 0 "child" 1 (by decide) 0 "tag" (.prim 5)⟩

/-- C9: reading a property whose stored value is `null` throws a `TypeError`
instead of returning `null`: `typeof null === 'object'` passes the wrap test,
`proxies.has(null)` is false, and `new Proxy(null, handler)` throws — so the
primitive pass-through policy does not extend to null-valued properties. -/
theorem c9_null_property_read_type_error (h : ComplexSignal.Heap) (t : Nat)
    (prop : String) (hf : h.fields t prop = .jnull) :
    ComplexSignal.handlerGet h t prop = .error .typeError := by
  simp [ComplexSignal.handlerGet, hf, ComplexSignal.isSignal,
    ComplexSignal.typeofObject, ComplexSignal.proxiesHas]

/-- C9 witness: reading the null-valued property `"gone"` of the concrete
wrapper throws a `TypeError`. -/
theorem c9_null_property_read_type_error_witness :
    exHeap.fields 0 "gone" = .jnull ∧
    ComplexSignal.handlerGet exHeap 0 "gone" = .error .typeError :=
  ⟨by decide, c9_null_property_read_type_error exHeap 0 "gone" (by decide)⟩

/-- C10: on a map- or set-shaped target, the handler returns an intercepted
mutator for `add`/`clear`/`delete`/`set`; the intercepted closure calls
`update()` strictly before applying the native mutation and outside any batch
scope, so it notifies exactly once, the trace is notify-then-mutate with no
batch events, and a synchronous subscriber observes the pre-mutation contents
— unlike property assignment, whose trace is write-then-notify. -/
theorem c10_ms_mutator_notifies_before_mutation (cs : ComplexSignal.CS)
    (t : Nat) (f : Nat) (prop : String) (op : ComplexSignal.MSOp)
    (hshape : cs.heap.shape t = .jmap ∨ cs.heap.shape t = .jset)
    (hprop : prop ∈ ComplexSignal.mapSetMutationMethods)
    (hf : cs.heap.fields t prop = .jfn f) :
    ComplexSignal.handlerGet cs.heap t prop = .ok (cs.heap, .msMutator f) ∧
    (ComplexSignal.msIntercept cs t op).2.1 = [Ev.notify, Ev.mutate] ∧
    Ev.batchStart ∉ (ComplexSignal.msIntercept cs t op).2.1 ∧
    (ComplexSignal.msIntercept cs t op).2.2 = cs.heap.msData t ∧
    (ComplexSignal.msIntercept cs t op).1.heap.msData t
      = ComplexSignal.applyMSOp op (cs.heap.msData t) ∧
    (ComplexSignal.msIntercept cs t op).1.notifies = cs.notifies + 1 ∧
    (ComplexSignal.handlerSet cs t prop (.prim 0)).2
      = [Ev.write, Ev.notify] := by
  have harr : cs.heap.shape t ≠ .arr := by
    rcases hshape with hs | hs <;> simp [hs]
  refine ⟨?_, rfl, by simp [ComplexSignal.msIntercept], rfl, ?_, rfl, rfl⟩
  · simp [ComplexSignal.handlerGet, hf, ComplexSignal.isSignal,
      ComplexSignal.typeofObject, ComplexSignal.proxiesHas, harr, hshape,
      hprop]
  · simp [ComplexSignal.msIntercept, ComplexSignal.update,
      ComplexSignal.setMsData]

/-- C10 witness: the `"set"` method of the concrete Map-shaped target is
intercepted, and `Map.prototype.set(5, 6)` notifies before mutating — the
subscriber observes the pre-mutation entries. -/
theorem c10_ms_mutator_notifies_before_mutation_witness :
    (exCS.heap.shape 2 = .jmap ∨ exCS.heap.shape 2 = .jset) ∧
    ComplexSignal.handlerGet exCS.heap 2 "set"
      = .ok (exCS.heap, .msMutator 7) ∧
    (ComplexSignal.msIntercept exCS 2 (.mset 5 6)).2.2 = [(1, 2)] ∧
    (ComplexSignal.msIntercept exCS 2 (.mset 5 6)).1.heap.msData 2
      = [(1, 2), (5, 6)] :=
  ⟨by decide,
   (c10_ms_mutator_notifies_before_mutation exCS 2 7 "set" (.mset 5 6)
      (by decide) (by decide) (by decide)).1,
   by decide,
   by decide⟩

end Claims
